import Mathlib

/-!
# Verification of the XMLFlatten dual-policy flattening engine

Shallow embedding of the repository's flattening routines:

* `expand_node` — Policy A, full cartesian expansion (`app.py`, `expand_node`);
* `flatten_element`, `has_repetitive_descendants`, `extractRep`
  (`_extract_repetitive_data`), `flatten_xml` — Policy B, denormalized
  warehouse flattening (`version3.py`, class `XMLToSnowflakeETL`);
* `infer_snowflake_type` (`_infer_snowflake_type`) — Policy B type inference.

Python dictionaries are embedded as association lists (`Ctx`) whose
operations reproduce Python `dict` semantics: assignment to an existing key
keeps its position, assignment to a fresh key appends, `update` folds the
other dict's items in order, and `==` compares key→value mappings ignoring
order.  Integer values (the `_sequence_num` counter) are kept distinct from
strings via the `Val` type, matching Python's `1 != "1"`.

The mutually recursive tree walks are written with all conditionals factored
into non-recursive `...Assemble`/`...Step` helpers, so that the recursive
equations are plain constructor destructuring; this keeps the compiled
definitions free of casts and lets the kernel evaluate them on concrete
trees.  `extractRep` recurses on non-structural subterms (grouped children),
so it is defined by well-founded recursion and accompanied by a fuel-indexed
twin `extractRepFuel`, proved equal to it for sufficient fuel, which the
kernel can evaluate.
-/

/-- A Python scalar dict value: either a string or an int
(the `_sequence_num` counter is stored as an int in `version3.py`). -/
inductive Val where
  | str : String → Val
  | int : Nat → Val
deriving DecidableEq, Repr

/-- A Python dict of column name → scalar value, as an ordered association list. -/
abbrev Ctx := List (String × Val)

/-- First-match lookup, i.e. reading `d[k]` from a Python dict
(entries built by `insertKV` have unique keys, so first match is the match). -/
def Ctx.find : Ctx → String → Option Val
  | [], _ => none
  | (k', v) :: rest, k => if k' = k then some v else Ctx.find rest k

/-- Python dict assignment `d[k] = v`: overwrite in place if the key exists
(keeping its position), otherwise append at the end. -/
def Ctx.insertKV (c : Ctx) (k : String) (v : Val) : Ctx :=
  if c.any (fun p => p.1 == k) then
    c.map (fun p => if p.1 = k then (k, v) else p)
  else
    c ++ [(k, v)]

/-- Python `d.update(other)`: assign each of `other`'s items in order. -/
def Ctx.update (c other : Ctx) : Ctx :=
  other.foldl (fun acc p => Ctx.insertKV acc p.1 p.2) c

/-- Python dict equality `d1 == d2`: same key→value mapping, order ignored. -/
def Ctx.dictEq (a b : Ctx) : Bool :=
  (a.map Prod.fst ++ b.map Prod.fst).all (fun k => decide (Ctx.find a k = Ctx.find b k))

/-- The value found for `k` by the LAST assignment among `c`'s items
(relevant when `c` is replayed item by item into another dict). -/
def Ctx.lookupLast (c : Ctx) (k : String) : Option Val :=
  Ctx.find c.reverse k

/-- Python `str.strip()`: remove leading and trailing whitespace.  Defined
structurally over the character list (unlike `String.trim`, whose compiled
form the kernel cannot evaluate); ASCII whitespace suffices for this code. -/
def pyStrip (s : String) : String :=
  String.mk (((s.data.dropWhile Char.isWhitespace).reverse.dropWhile Char.isWhitespace).reverse)

/-- An XML element as parsed by `xml.etree.ElementTree`: tag, attributes in
document order, text (`None` is embedded as `""`), children in document order. -/
inductive Node where
  | mk : String → List (String × String) → String → List Node → Node

def Node.tag : Node → String
  | .mk t _ _ _ => t

def Node.attrib : Node → List (String × String)
  | .mk _ a _ _ => a

def Node.text : Node → String
  | .mk _ _ s _ => s

def Node.children : Node → List Node
  | .mk _ _ _ c => c

mutual

/-- Height of an element (a leaf has depth 1); used to bound recursion fuel. -/
def Node.depth : Node → Nat
  | .mk _ _ _ children => depthList children + 1
termination_by structural e => e

def depthList : List Node → Nat
  | [] => 0
  | c :: rest => max (Node.depth c) (depthList rest)
termination_by structural l => l

end

/-- The distinct child tags in first-seen order — the key order produced by
`groups.setdefault(child.tag, []).append(child)` over the children. -/
def firstSeenTags (children : List Node) : List String :=
  children.foldl (fun acc c => if acc.contains c.tag then acc else acc ++ [c.tag]) []

/-- Children grouped by tag: keys in first-seen order, and each tag's list in
document order.  This is exactly the dict built by repeated
`groups.setdefault(child.tag, []).append(child)`: that loop keys the dict in
first-seen tag order and appends same-tag children in document order, so each
value list is the document-order filter of the children by that tag. -/
def groupChildren (children : List Node) : List (String × List Node) :=
  (firstSeenTags children).map (fun t => (t, children.filter (fun c => c.tag == t)))

/-- `itertools.product`: all ways to pick one element from each list, the
last list varying fastest (document order of the combos). -/
def listProduct : List (List α) → List (List α)
  | [] => [[]]
  | g :: rest => g.flatMap (fun x => (listProduct rest).map (fun r => x :: r))

/-! ## Policy A — `app.py`, `expand_node` -/

/-- Column prefix of `app.py`: `f"{path}_{element.tag}" if path else element.tag`. -/
def colPfx (path tag : String) : String :=
  if path ≠ "" then path ++ "_" ++ tag else tag

/-- `base[f"{prefix}_{k}"] = v` for each attribute, in document order. -/
def addAttrs (base : Ctx) (pfx : String) (attrs : List (String × String)) : Ctx :=
  attrs.foldl (fun b kv => Ctx.insertKV b (pfx ++ "_" ++ kv.1) (Val.str kv.2)) base

/-- The non-recursive part of `expand_node`, given the already-expanded
children (`childRows`, tag paired with row list, in document order).
Attributes are merged into a copy of the context; a childless element with
text becomes a terminal row; a childless element without text returns the
base row; otherwise each tag group's rows are concatenated (the source
expands the children group by group via
`for tag, nodes in groups.items(): for n in nodes: rows.extend(...)`;
since every child is expanded against the same `base` and `prefix`, this
equals expanding the children once in document order and concatenating each
tag's results in first-seen tag order), and the cartesian product across
groups is merged last-group-wins into a copy of the base. -/
def expandAssemble (tag : String) (attrs : List (String × String)) (text : String)
    (children : List Node) (context : Ctx) (path : String)
    (childRows : List (String × List Ctx)) : List Ctx :=
  if (pyStrip text) ≠ "" ∧ children.isEmpty then
    [Ctx.insertKV (addAttrs context (colPfx path tag) attrs) (colPfx path tag)
      (Val.str (pyStrip text))]
  else if children.isEmpty then
    [addAttrs context (colPfx path tag) attrs]
  else
    (listProduct ((firstSeenTags children).map (fun t =>
      ((childRows.filter (fun p => p.1 == t)).map Prod.snd).flatten))).map
      (fun combo => combo.foldl Ctx.update (addAttrs context (colPfx path tag) attrs))

mutual

/-- Policy A (`app.py`, `expand_node`): expand an element into a list of rows. -/
def expand_node : Node → Ctx → String → List Ctx
  | .mk tag attrs text children, context, path =>
    expandAssemble tag attrs text children context path
      (expandChildren children (addAttrs context (colPfx path tag) attrs) (colPfx path tag))
termination_by structural e _ _ => e

/-- Each child's tag paired with its recursive expansion, in document order. -/
def expandChildren : List Node → Ctx → String → List (String × List Ctx)
  | [], _, _ => []
  | c :: rest, base, pfx => (c.tag, expand_node c base pfx) :: expandChildren rest base pfx
termination_by structural l _ _ => l

end

/-! ## Policy B — `version3.py`, `XMLToSnowflakeETL` -/

/-- `_flatten_element`'s prefix bookkeeping: both branches of
`f"{prefix}{element.tag}_{attr}" if prefix else f"{element.tag}_{attr}"`
concatenate to `prefix + tag`, since the false branch has `prefix = ""`. -/
def flattenBase (tag : String) (attrs : List (String × String)) (text : String)
    (pfx : String) : Ctx :=
  if (pyStrip text) ≠ "" then
    Ctx.insertKV
      (attrs.foldl (fun r kv => Ctx.insertKV r (pfx ++ tag ++ "_" ++ kv.1) (Val.str kv.2)) [])
      (pfx ++ tag) (Val.str (pyStrip text))
  else
    attrs.foldl (fun r kv => Ctx.insertKV r (pfx ++ tag ++ "_" ++ kv.1) (Val.str kv.2)) []

def flattenAssemble (tag : String) (attrs : List (String × String)) (text : String)
    (children : List Node) (pfx : String) (childResults : List (Option Ctx)) : Option Ctx :=
  if (groupChildren children).any (fun g => decide (g.2.length > 1)) then
    none
  else if childResults.any (fun r => r.isNone) then
    none
  else
    some (childResults.foldl (fun r cr => Ctx.update r (cr.getD []))
      (flattenBase tag attrs text pfx))

mutual

/-- `_flatten_element`: flatten an element into a single dict, or `None`
(the not-flattenable sentinel) as soon as any node along the way has a
repeated child tag.  The source first rejects the element if any tag group
has two or more children and then loops over `child_tags.items()` taking
`children[0]` of each; when the rejection test passes every group is a
singleton, so that loop visits exactly the children in document order —
here the children are recursed in document order and a deep `None`
(checked by `childResults.any isNone`) likewise yields `None`. -/
def flatten_element : Node → String → Option Ctx
  | .mk tag attrs text children, pfx =>
    flattenAssemble tag attrs text children pfx (flattenChildren children (pfx ++ tag ++ "_"))
termination_by structural e _ => e

def flattenChildren : List Node → String → List (Option Ctx)
  | [], _ => []
  | c :: rest, p2 => flatten_element c p2 :: flattenChildren rest p2
termination_by structural l _ => l

end

mutual

/-- `_has_repetitive_descendants`: some node of the subtree rooted here has
two or more same-tag children. -/
def has_repetitive_descendants : Node → Bool
  | .mk _ _ _ children =>
    (groupChildren children).any (fun g => decide (g.2.length > 1)) || hasRepList children
termination_by structural e => e

def hasRepList : List Node → Bool
  | [] => false
  | c :: rest => has_repetitive_descendants c || hasRepList rest
termination_by structural l => l

end

/-- Python truthiness of `_flatten_element`'s result at its call sites
(`if flattened:`): `None` and the empty dict are both falsy. -/
def pyTruthy : Option Ctx → Bool
  | none => false
  | some r => !r.isEmpty

/-- The `non_repetitive` dict of `_extract_repetitive_data`: for each tag
group with exactly one child, that child (`children[0]`), keyed in
first-seen tag order. -/
def nonRepItems (children : List Node) : List Node :=
  (groupChildren children).filterMap (fun g => if g.2.length == 1 then g.2.head? else none)

/-- The `repetitive` dict of `_extract_repetitive_data`: the tag groups with
two or more children, in first-seen tag order. -/
def repGroups (children : List Node) : List (String × List Node) :=
  (groupChildren children).filter (fun g => decide (g.2.length > 1))

/-- The `for tag, child in non_repetitive.items()` loop control: the items
whose inline flattening is truthy, up to (exclusive) the first item whose
flattening is falsy (`None` or the empty dict) — at that item the source
diverts into recursive extraction and returns. -/
def splitFirstFalsy : List Node → List Node × Option Node
  | [] => ([], none)
  | n :: rest =>
    if pyTruthy (flatten_element n "") then
      (n :: (splitFirstFalsy rest).1, (splitFirstFalsy rest).2)
    else
      ([], some n)

/-- Lines 179–183 of `version3.py`: copy the parent data, then add this
element's text under its tag and its attributes under `tag_attr`. -/
def addOwnData (element : Node) (parent : Ctx) : Ctx :=
  let c0 := if pyStrip element.text ≠ "" then
    Ctx.insertKV parent element.tag (Val.str (pyStrip element.text)) else parent
  element.attrib.foldl (fun c kv => Ctx.insertKV c (element.tag ++ "_" ++ kv.1) (Val.str kv.2)) c0

/-- `current_data.update(flattened)` for each truthy inline flattening, in
loop order. -/
def applyFlattens (pre : List Node) (c : Ctx) : Ctx :=
  pre.foldl (fun acc n => Ctx.update acc ((flatten_element n "").getD [])) c

/-- Python `enumerate`. -/
def enumL : Nat → List α → List (Nat × α)
  | _, [] => []
  | i, c :: rest => (i, c) :: enumL (i + 1) rest

theorem mem_of_mem_enumL {l : List α} {i : Nat} {p : Nat × α} (h : p ∈ enumL i l) : p.2 ∈ l := by
  induction l generalizing i with
  | nil => simp [enumL] at h
  | cons c rest ih =>
    simp only [enumL, List.mem_cons] at h
    rcases h with h | h
    · subst h; exact List.mem_cons_self _ _
    · exact List.mem_cons_of_mem _ (ih h)

theorem groupChildren_sub {l : List Node} {g : String × List Node}
    (hg : g ∈ groupChildren l) {n : Node} (hn : n ∈ g.2) : n ∈ l := by
  simp only [groupChildren, List.mem_map] at hg
  obtain ⟨t, _, rfl⟩ := hg
  exact (List.mem_filter.1 hn).1

theorem mem_of_mem_nonRepItems {l : List Node} {n : Node} (h : n ∈ nonRepItems l) : n ∈ l := by
  simp only [nonRepItems, List.mem_filterMap] at h
  obtain ⟨g, hg, he⟩ := h
  split at he
  · exact groupChildren_sub hg (List.mem_of_mem_head? he)
  · simp at he

theorem mem_of_splitFirstFalsy_fst {l : List Node} {n : Node}
    (h : n ∈ (splitFirstFalsy l).1) : n ∈ l := by
  induction l with
  | nil => simp [splitFirstFalsy] at h
  | cons c rest ih =>
    simp only [splitFirstFalsy] at h
    split at h
    · simp only [List.mem_cons] at h
      rcases h with h | h
      · subst h; exact List.mem_cons_self _ _
      · exact List.mem_cons_of_mem _ (ih h)
    · simp at h

theorem mem_of_splitFirstFalsy_snd {l : List Node} {n : Node}
    (h : (splitFirstFalsy l).2 = some n) : n ∈ l := by
  induction l with
  | nil => simp [splitFirstFalsy] at h
  | cons c rest ih =>
    simp only [splitFirstFalsy] at h
    split at h
    · exact List.mem_cons_of_mem _ (ih h)
    · simp only [Option.some.injEq] at h
      subst h; exact List.mem_cons_self _ _

theorem mem_of_mem_repGroups {l : List Node} {g : String × List Node}
    (hg : g ∈ repGroups l) {n : Node} (hn : n ∈ g.2) : n ∈ l :=
  groupChildren_sub (List.mem_of_mem_filter hg) hn

theorem Node.sizeOf_lt_of_mem_children {e : Node} {n : Node}
    (h : n ∈ e.children) : sizeOf n < sizeOf e := by
  cases e with
  | mk t a s c =>
    simp only [Node.children] at h
    have := List.sizeOf_lt_of_mem h
    simp only [Node.mk.sizeOf_spec]
    omega

/-- `_extract_repetitive_data`: walk the element, inline-flattening
non-repetitive child groups into the running dict; on the first falsy
inline flattening divert into that child and return its rows; if repeating
groups exist, fan out each repeating group's children with 1-based sequence
numbers and recurse; otherwise finalize one row (stamped with the load
timestamp `now`) when the dict changed from the parent dict. -/
def extractRep (now : String) (element : Node) (parent_data : Ctx) : List Ctx :=
  let current1 := addOwnData element parent_data
  match h : splitFirstFalsy (nonRepItems element.children) with
  | (pre, some bad) => extractRep now bad (applyFlattens pre current1)
  | (pre, none) =>
    let current2 := applyFlattens pre current1
    let reps := repGroups element.children
    if reps.isEmpty then
      if Ctx.dictEq current2 parent_data then []
      else [Ctx.insertKV current2 "_load_timestamp" (Val.str now)]
    else
      reps.attach.flatMap (fun gp =>
        (enumL 0 gp.1.2).attach.flatMap (fun icp =>
          extractRep now icp.1.2 (Ctx.insertKV current2 "_sequence_num" (Val.int (icp.1.1 + 1)))))
termination_by sizeOf element
decreasing_by
  · exact Node.sizeOf_lt_of_mem_children
      (mem_of_mem_nonRepItems (mem_of_splitFirstFalsy_snd (by rw [h])))
  · exact Node.sizeOf_lt_of_mem_children
      (mem_of_mem_repGroups gp.2 (mem_of_mem_enumL icp.2))

/-- Fuel-indexed twin of `extractRep`, structural in the fuel so that the
kernel can evaluate it; `extractRep_fuel_spec` proves it equal to
`extractRep` whenever the fuel exceeds the element's depth (the `0` case is
never reached then). -/
def extractRepFuel : Nat → String → Node → Ctx → List Ctx
  | 0, _, _, _ => []
  | fuel + 1, now, element, parent_data =>
    let current1 := addOwnData element parent_data
    match splitFirstFalsy (nonRepItems element.children) with
    | (pre, some bad) => extractRepFuel fuel now bad (applyFlattens pre current1)
    | (pre, none) =>
      let current2 := applyFlattens pre current1
      let reps := repGroups element.children
      if reps.isEmpty then
        if Ctx.dictEq current2 parent_data then []
        else [Ctx.insertKV current2 "_load_timestamp" (Val.str now)]
      else
        reps.flatMap (fun g =>
          (enumL 0 g.2).flatMap (fun ic =>
            extractRepFuel fuel now ic.2
              (Ctx.insertKV current2 "_sequence_num" (Val.int (ic.1 + 1)))))

/-- One step of `root.find(".//" + tag)`: preorder document-order search —
the node itself, then its subtree, then the following siblings. -/
def findStep (t : String) (c : Node) (inChild inRest : Option Node) : Option Node :=
  if c.tag == t then some c else inChild.orElse (fun _ => inRest)

mutual

/-- `ElementTree.find(".//tag")` over a list of nodes: first matching
descendant-or-self in document order.  Both branch results are computed
unconditionally (they are pure), which leaves the recursion structural. -/
def findDesc : String → List Node → Option Node
  | _, [] => none
  | t, c :: rest => findStep t c (findDescIn t c) (findDesc t rest)
termination_by structural _ l => l

def findDescIn : String → Node → Option Node
  | t, .mk _ _ _ children => findDesc t children
termination_by structural _ e => e

end

/-- Python dict assignment `tables[table_name] = collected_data`
(line 243 of `version3.py`): REPLACES the previous entry if the key exists. -/
def tablesInsert (tables : List (String × List Ctx)) (name : String) (rows : List Ctx) :
    List (String × List Ctx) :=
  if tables.any (fun p => p.1 == name) then
    tables.map (fun p => if p.1 = name then (name, rows) else p)
  else
    tables ++ [(name, rows)]

/-- Lines 223–240 of `version3.py`: the rows collected for one Level-1 child.
If the child's subtree has repetitive children anywhere, seed `parent_data`
with the child's own text/attributes and extract recursively; otherwise
inline-flatten it and, when the result is truthy (`if flattened:` — neither
`None` nor empty), stamp it as the single row. -/
def processChild (now : String) (child : Node) : List Ctx :=
  if has_repetitive_descendants child then
    extractRep now child (addOwnData child [])
  else
    match flatten_element child "" with
    | some f => if f.isEmpty then [] else [Ctx.insertKV f "_load_timestamp" (Val.str now)]
    | none => []

/-- `flatten_xml`: select the data element (the root itself if its tag
matches, else the first matching descendant), then fold its children into
the `tables` dict; a child contributing no rows is skipped
(`if collected_data:`). -/
def dataElem (data_node : String) (root : Node) : Option Node :=
  if root.tag == data_node then some root else findDesc data_node root.children

def tablesStep (now : String) (tables : List (String × List Ctx)) (child : Node) :
    List (String × List Ctx) :=
  if (processChild now child).isEmpty then tables
  else tablesInsert tables child.tag (processChild now child)

/-- `flatten_xml` continued: fold the selected element's children through
`tablesStep` (`collected_data` is pure, so computing it twice in the step is
the same as Python's single computation). -/
def flatten_xml (data_node now : String) (root : Node) : List (String × List Ctx) :=
  match dataElem data_node root with
  | none => []
  | some de => de.children.foldl (tablesStep now) []

/-! ## Policy B type inference — `_infer_snowflake_type` -/

/-- Trailing part of a Python digit string: digits with single underscores
strictly between digits. -/
def digitSep : List Char → Bool
  | [] => true
  | ['_'] => false
  | '_' :: c :: r2 => c.isDigit && digitSep r2
  | c :: rest => c.isDigit && digitSep rest

/-- A nonempty Python digit string (`0-9` with single interior underscores).
(Python's `int`/`float` also accept non-ASCII decimal digits; those do not
occur in this data model.) -/
def digitRun (l : List Char) : Bool :=
  match l with
  | [] => false
  | c :: rest => c.isDigit && digitSep rest

/-- Strip one leading `+`/`-` sign. -/
def stripSign : List Char → List Char
  | '+' :: rest => rest
  | '-' :: rest => rest
  | l => l

/-- `int(value_str)` succeeds (the string was already stripped). -/
def pyIntParseable (s : String) : Bool :=
  digitRun (stripSign s.data)

/-- A Python float mantissa: `digits`, `digits.`, `.digits` or
`digits.digits`, with at most one dot. -/
def mantissaOk (l : List Char) : Bool :=
  let ip := l.takeWhile (fun c => c != '.')
  let rest := l.dropWhile (fun c => c != '.')
  match rest with
  | [] => digitRun ip
  | _ :: frac =>
    !(frac.any (fun c => c == '.')) &&
    !(ip.isEmpty && frac.isEmpty) &&
    (ip.isEmpty || digitRun ip) && (frac.isEmpty || digitRun frac)

/-- The numeric part of a Python float literal: mantissa with an optional
`e`/`E` exponent. -/
def floatBody (l : List Char) : Bool :=
  let m := l.takeWhile (fun c => c != 'e' && c != 'E')
  let rest := l.dropWhile (fun c => c != 'e' && c != 'E')
  match rest with
  | [] => mantissaOk m
  | _ :: ex => mantissaOk m && digitRun (stripSign ex)

/-- `float(value_str)` succeeds: an optional sign followed by `inf`,
`infinity`, `nan` (case-insensitive) or a numeric literal. -/
def pyFloatParseable (s : String) : Bool :=
  let l := stripSign s.data
  let low := l.map Char.toLower
  low == "inf".data || low == "infinity".data || low == "nan".data || floatBody l

/-- Line 267 of `version3.py`:
`len(value_str) in [8, 10] and (value_str.count('-') == 2 or value_str.count('/') == 2)`. -/
def dateShape (s : String) : Bool :=
  (s.length == 8 || s.length == 10) && (s.data.count '-' == 2 || s.data.count '/' == 2)

/-- `_infer_snowflake_type` for a string value (`value is None` is the
absent case and is subsumed by `""`, both yielding `VARCHAR(500)`): empty →
`VARCHAR(500)`; else on the stripped string, `int()` parse → `INTEGER`;
else `float()` parse → `FLOAT`; else the 8/10-char two-separator shape →
`DATE`; else `VARCHAR(min(max(len, 100) * 2, 16777216))`. -/
def infer_snowflake_type (value : String) : String :=
  if value = "" then "VARCHAR(500)"
  else
    let value_str := pyStrip value
    if pyIntParseable value_str then "INTEGER"
    else if pyFloatParseable value_str then "FLOAT"
    else if dateShape value_str then "DATE"
    else "VARCHAR(" ++ toString (min (max value_str.length 100 * 2) 16777216) ++ ")"

/-! ## Spec-side predicates -/

mutual

/-- Some node of the subtree carries an attribute or nonempty trimmed text
(the spec's "contributed some text or attribute data"). -/
def hasData : Node → Bool
  | .mk _ attrs text children => !attrs.isEmpty || pyStrip text != "" || hasDataList children
termination_by structural e => e

def hasDataList : List Node → Bool
  | [] => false
  | c :: rest => hasData c || hasDataList rest
termination_by structural l => l

end

mutual

/-- The tag occurs at this node or anywhere in its subtree. -/
def containsTag : Node → String → Bool
  | .mk tag _ _ children, t => tag == t || containsTagList children t
termination_by structural e _ => e

def containsTagList : List Node → String → Bool
  | [], _ => false
  | c :: rest, t => containsTag c t || containsTagList rest t
termination_by structural l _ => l

end

/-! ## Derived forms used in the statements -/

/-- The `base` dict of `expand_node` after merging the attributes. -/
def baseOf (e : Node) (ctx : Ctx) (path : String) : Ctx :=
  addAttrs ctx (colPfx path e.tag) e.attrib

/-- The per-tag-group row lists of `expand_node` at a branching node: for
each tag group, the concatenation of the expansions of its children. -/
def groupsRows (e : Node) (ctx : Ctx) (path : String) : List (List Ctx) :=
  (groupChildren e.children).map (fun g =>
    (g.2.map (fun n => expand_node n (baseOf e ctx path) (colPfx path e.tag))).flatten)

/-- The last dict among `rs` that assigns `k` (the one whose value survives
a left-to-right `update` replay). -/
def findLastContaining (rs : List Ctx) (k : String) : Option Ctx :=
  rs.reverse.find? (fun r => (Ctx.lookupLast r k).isSome)

/-- The per-child tables `flatten_xml` produces when no overwriting occurs:
one `(tag, rows)` entry per level-1 child whose processing yields rows. -/
def childTables (now : String) (children : List Node) : List (String × List Ctx) :=
  children.filterMap (fun c =>
    if (processChild now c).isEmpty then none else some (c.tag, processChild now c))

/-- `key₁ ++ "_"` is a proper prefix scheme: `k` extends `p` by an
underscore-separated segment. -/
def strExt (p k : String) : Prop :=
  p.data ++ ['_'] <+: k.data

/-! ## Dict lemmas -/

theorem Ctx.find_append (a b : Ctx) (k : String) :
    Ctx.find (a ++ b) k = (Ctx.find a k).or (Ctx.find b k) := by
  induction a with
  | nil => simp [Ctx.find]
  | cons p rest ih =>
    obtain ⟨k0, v0⟩ := p
    by_cases h : k0 = k <;> simp [Ctx.find, h, ih]

theorem Ctx.find_map_subst_ne (c : Ctx) (key : String) (v : Val) (k : String) (hne : key ≠ k) :
    Ctx.find (c.map (fun p => if p.1 = key then (key, v) else p)) k = Ctx.find c k := by
  induction c with
  | nil => simp
  | cons p rest ih =>
    obtain ⟨k0, v0⟩ := p
    simp only [List.map_cons]
    by_cases h : k0 = key
    · subst h
      rw [if_pos rfl]
      simp [Ctx.find, hne, ih]
    · rw [if_neg h]
      by_cases h2 : k0 = k <;> simp [Ctx.find, h2, ih]

theorem Ctx.find_map_subst_eq (c : Ctx) (key : String) (v : Val)
    (hc : c.any (fun p => p.1 == key) = true) :
    Ctx.find (c.map (fun p => if p.1 = key then (key, v) else p)) key = some v := by
  induction c with
  | nil => simp at hc
  | cons p rest ih =>
    obtain ⟨k0, v0⟩ := p
    simp only [List.map_cons]
    by_cases h : k0 = key
    · subst h
      rw [if_pos rfl]
      simp [Ctx.find]
    · rw [if_neg h]
      simp only [List.any_cons, Bool.or_eq_true, beq_iff_eq] at hc
      rcases hc with hc | hc
      · exact absurd hc h
      · simp [Ctx.find, h, ih hc]

theorem Ctx.find_eq_none_of_any_false (c : Ctx) (k : String)
    (h : c.any (fun p => p.1 == k) = false) : Ctx.find c k = none := by
  induction c with
  | nil => rfl
  | cons p rest ih =>
    simp only [List.any_cons, Bool.or_eq_false_iff, beq_eq_false_iff_ne, ne_eq] at h
    simp [Ctx.find, h.1, ih h.2]

theorem Ctx.find_insertKV (c : Ctx) (key : String) (v : Val) (k : String) :
    Ctx.find (Ctx.insertKV c key v) k = if key = k then some v else Ctx.find c k := by
  unfold Ctx.insertKV
  split
  next hany =>
    by_cases h : key = k
    · subst h
      simp [Ctx.find_map_subst_eq c key v hany]
    · simp [Ctx.find_map_subst_ne c key v k h, h]
  next hany =>
    rw [Ctx.find_append]
    have hfalse : c.any (fun p => p.1 == key) = false := by
      cases h : c.any (fun p => p.1 == key)
      · rfl
      · exact absurd h hany
    by_cases h : key = k
    · subst h
      rw [Ctx.find_eq_none_of_any_false c key hfalse]
      simp [Ctx.find]
    · simp only [Ctx.find, if_neg h]
      cases Ctx.find c k <;> simp [Ctx.find]

theorem Ctx.lookupLast_cons (p : String × Val) (rest : Ctx) (k : String) :
    Ctx.lookupLast (p :: rest) k =
      (Ctx.lookupLast rest k).or (if p.1 = k then some p.2 else none) := by
  obtain ⟨k0, v0⟩ := p
  simp only [Ctx.lookupLast, List.reverse_cons, Ctx.find_append]
  by_cases h : k0 = k <;> simp [Ctx.find, h]

theorem Ctx.find_update (c r : Ctx) (k : String) :
    Ctx.find (Ctx.update c r) k = (Ctx.lookupLast r k).or (Ctx.find c k) := by
  induction r generalizing c with
  | nil => simp [Ctx.update, Ctx.lookupLast, Ctx.find]
  | cons p rest ih =>
    show Ctx.find (Ctx.update (Ctx.insertKV c p.1 p.2) rest) k = _
    rw [ih, Ctx.find_insertKV, Ctx.lookupLast_cons]
    cases hl : Ctx.lookupLast rest k <;> by_cases h : p.1 = k <;> simp [h]

theorem mergeLookup (rs : List Ctx) (base : Ctx) (k : String) :
    Ctx.find (rs.foldl Ctx.update base) k =
      match findLastContaining rs k with
      | some r => Ctx.lookupLast r k
      | none => Ctx.find base k := by
  induction rs generalizing base with
  | nil => simp [findLastContaining]
  | cons r rest ih =>
    show Ctx.find (rest.foldl Ctx.update (Ctx.update base r)) k = _
    rw [ih]
    simp only [findLastContaining, List.reverse_cons, List.find?_append]
    cases hfind : rest.reverse.find? (fun r => (Ctx.lookupLast r k).isSome) with
    | some r2 => simp [hfind]
    | none =>
      simp only [hfind, Option.none_or]
      cases hl : Ctx.lookupLast r k with
      | some v => simp [List.find?, hl, Ctx.find_update, Option.or]
      | none => simp [List.find?, hl, Ctx.find_update, Option.or]

theorem Ctx.dictEq_refl (c : Ctx) : Ctx.dictEq c c = true := by
  simp [Ctx.dictEq]

/-! ## Keys and nodup lemmas -/

def Ctx.keys (c : Ctx) : List String := c.map Prod.fst

theorem Ctx.keys_insertKV (c : Ctx) (k : String) (v : Val) :
    Ctx.keys (Ctx.insertKV c k v) =
      if c.any (fun p => p.1 == k) then Ctx.keys c else Ctx.keys c ++ [k] := by
  unfold Ctx.insertKV
  split
  · simp only [if_pos ‹_›, Ctx.keys, List.map_map]
    exact List.map_congr_left (fun p _ => by by_cases h : p.1 = k <;> simp [h])
  · simp only [if_neg ‹_›, Ctx.keys, List.map_append, List.map_cons, List.map_nil]

theorem Ctx.not_mem_keys_of_any_false {c : Ctx} {k : String}
    (h : c.any (fun p => p.1 == k) = false) : k ∉ Ctx.keys c := by
  intro hk
  simp only [Ctx.keys, List.mem_map] at hk
  obtain ⟨p, hp, he⟩ := hk
  have : c.any (fun p => p.1 == k) = true := List.any_eq_true.mpr ⟨p, hp, by simp [he]⟩
  rw [h] at this
  exact Bool.false_ne_true this

theorem Ctx.nodupKeys_insertKV {c : Ctx} (h : (Ctx.keys c).Nodup) (k : String) (v : Val) :
    (Ctx.keys (Ctx.insertKV c k v)).Nodup := by
  rw [Ctx.keys_insertKV]
  split
  · exact h
  next hany =>
    have hfalse : c.any (fun p => p.1 == k) = false := by
      cases hb : c.any (fun p => p.1 == k)
      · rfl
      · exact absurd hb hany
    have hk := Ctx.not_mem_keys_of_any_false hfalse
    simp [List.nodup_append, h, hk]

theorem Ctx.nodupKeys_update {c : Ctx} (h : (Ctx.keys c).Nodup) (r : Ctx) :
    (Ctx.keys (Ctx.update c r)).Nodup := by
  induction r generalizing c with
  | nil => exact h
  | cons p rest ih => exact ih (Ctx.nodupKeys_insertKV h p.1 p.2)

theorem Ctx.nodupKeys_addAttrs {c : Ctx} (h : (Ctx.keys c).Nodup) (pfx : String)
    (attrs : List (String × String)) : (Ctx.keys (addAttrs c pfx attrs)).Nodup := by
  induction attrs generalizing c with
  | nil => exact h
  | cons a rest ih => exact ih (Ctx.nodupKeys_insertKV h _ _)

theorem Ctx.find_none_of_not_mem_keys {c : Ctx} {k : String} (h : k ∉ Ctx.keys c) :
    Ctx.find c k = none := by
  induction c with
  | nil => rfl
  | cons p rest ih =>
    simp only [Ctx.keys, List.map_cons, List.mem_cons, not_or] at h
    have h1 : p.1 ≠ k := fun hh => h.1 hh.symm
    obtain ⟨k0, v0⟩ := p
    simp only [Ctx.find, if_neg h1]
    exact ih (by simpa [Ctx.keys] using h.2)

theorem Ctx.lookupLast_eq_find {c : Ctx} (h : (Ctx.keys c).Nodup) (k : String) :
    Ctx.lookupLast c k = Ctx.find c k := by
  induction c with
  | nil => rfl
  | cons p rest ih =>
    obtain ⟨k0, v0⟩ := p
    simp only [Ctx.keys, List.map_cons, List.nodup_cons] at h
    rw [Ctx.lookupLast_cons]
    by_cases hk : k0 = k
    · subst hk
      have hnone : Ctx.lookupLast rest k0 = none := by
        rw [ih h.2]
        exact Ctx.find_none_of_not_mem_keys (by simpa [Ctx.keys] using h.1)
      simp [hnone, Ctx.find]
    · rw [ih h.2]
      simp [Ctx.find, hk]

theorem nodupKeys_foldl_update {base : Ctx} (h : (Ctx.keys base).Nodup) (combo : List Ctx) :
    (Ctx.keys (combo.foldl Ctx.update base)).Nodup := by
  induction combo generalizing base with
  | nil => exact h
  | cons r rest ih => exact ih (Ctx.nodupKeys_update h r)

/-! ## `listProduct` lemmas -/

theorem length_listProduct (ls : List (List α)) :
    (listProduct ls).length = (ls.map List.length).prod := by
  induction ls with
  | nil => simp [listProduct]
  | cons g rest ih =>
    have hflat : ∀ gl : List α,
        (gl.flatMap (fun x => (listProduct rest).map (fun r => x :: r))).length =
          gl.length * (listProduct rest).length := by
      intro gl
      induction gl with
      | nil => simp
      | cons x xs ihx => simp [List.flatMap_cons, ihx, Nat.succ_mul, Nat.add_comm]
    simp [listProduct, hflat, ih]

theorem exists_group_of_mem_listProduct {ls : List (List α)} {combo : List α}
    (hc : combo ∈ listProduct ls) {r : α} (hr : r ∈ combo) : ∃ g ∈ ls, r ∈ g := by
  induction ls generalizing combo with
  | nil =>
    simp only [listProduct, List.mem_singleton] at hc
    subst hc
    simp at hr
  | cons g rest ih =>
    simp only [listProduct, List.mem_flatMap, List.mem_map] at hc
    obtain ⟨x, hx, c2, hc2, rfl⟩ := hc
    rcases List.mem_cons.1 hr with rfl | hr2
    · exact ⟨g, List.mem_cons_self _ _, hx⟩
    · obtain ⟨g2, hg2, hrg⟩ := ih hc2 hr2
      exact ⟨g2, List.mem_cons_of_mem _ hg2, hrg⟩

/-! ## `expand_node` unfolding lemmas -/

theorem expand_node_def (e : Node) (ctx : Ctx) (path : String) :
    expand_node e ctx path = expandAssemble e.tag e.attrib e.text e.children ctx path
      (expandChildren e.children (baseOf e ctx path) (colPfx path e.tag)) := by
  cases e
  rfl

theorem expandChildren_eq_map (l : List Node) (base : Ctx) (pfx : String) :
    expandChildren l base pfx = l.map (fun c => (c.tag, expand_node c base pfx)) := by
  induction l with
  | nil => rfl
  | cons c rest ih => simp [expandChildren, ih]

theorem filter_expandChildren (l : List Node) (base : Ctx) (pfx t : String) :
    ((expandChildren l base pfx).filter (fun p => p.1 == t)).map Prod.snd =
      (l.filter (fun c => c.tag == t)).map (fun c => expand_node c base pfx) := by
  rw [expandChildren_eq_map, List.filter_map, List.map_map]
  rfl

theorem expand_node_branch (e : Node) (ctx : Ctx) (path : String)
    (h : e.children.isEmpty = false) :
    expand_node e ctx path =
      (listProduct (groupsRows e ctx path)).map
        (fun combo => combo.foldl Ctx.update (baseOf e ctx path)) := by
  rw [expand_node_def]
  unfold expandAssemble
  rw [if_neg (by simp [h]), if_neg (by simp [h])]
  have hgroups : (firstSeenTags e.children).map (fun t =>
      (((expandChildren e.children (baseOf e ctx path) (colPfx path e.tag)).filter
        (fun p => p.1 == t)).map Prod.snd).flatten) = groupsRows e ctx path := by
    unfold groupsRows groupChildren
    rw [List.map_map]
    exact List.map_congr_left (fun t _ => by rw [filter_expandChildren]; rfl)
  rw [hgroups]
  rfl

theorem expand_node_text_leaf (e : Node) (ctx : Ctx) (path : String)
    (ht : pyStrip e.text ≠ "") (hc : e.children.isEmpty = true) :
    expand_node e ctx path =
      [Ctx.insertKV (baseOf e ctx path) (colPfx path e.tag) (Val.str (pyStrip e.text))] := by
  rw [expand_node_def]
  unfold expandAssemble
  rw [if_pos ⟨ht, hc⟩]
  rfl

theorem expand_node_childless (e : Node) (ctx : Ctx) (path : String)
    (ht : pyStrip e.text = "") (hc : e.children.isEmpty = true) :
    expand_node e ctx path = [baseOf e ctx path] := by
  rw [expand_node_def]
  unfold expandAssemble
  rw [if_neg (by simp [ht]), if_pos hc]
  rfl

/-- Every row `expand_node` returns is built from the base dict by
assignments and updates, so it has no duplicate keys whenever the incoming
context has none. -/
theorem expand_nodupKeys {e : Node} {ctx : Ctx} {path : String}
    (h : (Ctx.keys ctx).Nodup) :
    ∀ row ∈ expand_node e ctx path, (Ctx.keys row).Nodup := by
  intro row hrow
  have hbase : (Ctx.keys (baseOf e ctx path)).Nodup := Ctx.nodupKeys_addAttrs h _ _
  rw [expand_node_def] at hrow
  unfold expandAssemble at hrow
  split at hrow
  · simp only [List.mem_singleton] at hrow
    subst hrow
    exact Ctx.nodupKeys_insertKV hbase _ _
  · split at hrow
    · simp only [List.mem_singleton] at hrow
      subst hrow
      exact hbase
    · simp only [List.mem_map] at hrow
      obtain ⟨combo, _, rfl⟩ := hrow
      exact nodupKeys_foldl_update hbase combo

/-- Strong induction over `Node` via subtree membership. -/
theorem Node.inductionOn {P : Node → Prop}
    (step : ∀ t a s cs, (∀ c ∈ cs, P c) → P (Node.mk t a s cs)) : ∀ e, P e := by
  have key : ∀ n (e : Node), sizeOf e < n → P e := by
    intro n
    induction n with
    | zero => intro e h; omega
    | succ n ih =>
      intro e h
      cases e with
      | mk t a s cs =>
        apply step
        intro c hc
        have hlt : sizeOf c < sizeOf (Node.mk t a s cs) :=
          Node.sizeOf_lt_of_mem_children (by simpa [Node.children] using hc)
        exact ih c (by omega)
  intro e
  exact key (sizeOf e + 1) e (by omega)

/-! ## Fuel adequacy for `extractRep` -/

theorem depth_le_depthList {l : List Node} {c : Node} (h : c ∈ l) :
    Node.depth c ≤ depthList l := by
  induction l with
  | nil => simp at h
  | cons c0 rest ih =>
    rcases List.mem_cons.1 h with rfl | h2
    · simp [depthList]
    · have := ih h2
      simp [depthList]
      omega

theorem depth_lt_of_mem_children {e c : Node} (h : c ∈ e.children) :
    Node.depth c < Node.depth e := by
  cases e with
  | mk t a s cs =>
    simp only [Node.children] at h
    have := depth_le_depthList h
    simp only [Node.depth]
    omega

theorem attach_flatMap (l : List α) (F : α → List β) :
    l.attach.flatMap (fun x => F x.1) = l.flatMap F := by
  unfold List.flatMap
  rw [List.attach_map_val]

theorem flatMap_congr {l : List α} {f g : α → List β} (h : ∀ a ∈ l, f a = g a) :
    l.flatMap f = l.flatMap g := by
  unfold List.flatMap
  rw [List.map_congr_left h]

/-- `extractRepFuel` agrees with `extractRep` whenever the fuel bounds the
element's depth: the recursion of `_extract_repetitive_data` only ever
descends into children. -/
theorem extractRep_fuel_spec : ∀ (fuel : Nat) (e : Node), Node.depth e ≤ fuel →
    ∀ (now : String) (pd : Ctx), extractRepFuel fuel now e pd = extractRep now e pd := by
  intro fuel
  induction fuel with
  | zero =>
    intro e hd
    cases e with
    | mk t a s cs => simp [Node.depth] at hd
  | succ n ih =>
    intro e hd now pd
    have hchild : ∀ c ∈ e.children, Node.depth c ≤ n := by
      intro c hc
      have := depth_lt_of_mem_children hc
      omega
    rw [extractRep.eq_def]
    simp only [extractRepFuel]
    cases hs : splitFirstFalsy (nonRepItems e.children) with
    | mk pre obad =>
      cases obad with
      | some bad =>
        simp only [hs]
        exact ih bad
          (hchild bad (mem_of_mem_nonRepItems (mem_of_splitFirstFalsy_snd (by rw [hs])))) now _
      | none =>
        simp only [hs]
        refine if_congr Iff.rfl rfl ?_
        symm
        trans ((repGroups e.children).flatMap fun g =>
          (enumL 0 g.2).attach.flatMap fun icp =>
            extractRep now icp.1.2
              (Ctx.insertKV (applyFlattens pre (addOwnData e pd)) "_sequence_num"
                (Val.int (icp.1.1 + 1))))
        · exact attach_flatMap (repGroups e.children) (fun g =>
            (enumL 0 g.2).attach.flatMap fun icp =>
              extractRep now icp.1.2
                (Ctx.insertKV (applyFlattens pre (addOwnData e pd)) "_sequence_num"
                  (Val.int (icp.1.1 + 1))))
        · apply flatMap_congr
          intro g hg
          trans ((enumL 0 g.2).flatMap fun ic =>
            extractRep now ic.2
              (Ctx.insertKV (applyFlattens pre (addOwnData e pd)) "_sequence_num"
                (Val.int (ic.1 + 1))))
          · exact attach_flatMap (enumL 0 g.2) (fun ic =>
              extractRep now ic.2
                (Ctx.insertKV (applyFlattens pre (addOwnData e pd)) "_sequence_num"
                  (Val.int (ic.1 + 1))))
          · exact flatMap_congr (fun ic hic =>
              (ih ic.2 (hchild _ (mem_of_mem_repGroups hg (mem_of_mem_enumL hic))) now _).symm)

/-! ## Scenario trees -/

/-- `<data><item id="1">A</item><item id="2">B</item></data>` -/
def exScenario : Node :=
  .mk "data" [] "" [.mk "item" [("id", "1")] "A" [], .mk "item" [("id", "2")] "B" []]

/-- Two level-1 children with the SAME tag, each flattenable. -/
def exSameTag : Node :=
  .mk "data" [] "" [.mk "p" [("u", "1")] "" [], .mk "p" [("u", "2")] "" []]

/-- Two level-1 children with distinct tags. -/
def exDistinctTags : Node :=
  .mk "data" [] "" [.mk "p" [("u", "1")] "" [], .mk "q" [("u", "2")] "" []]

/-- A node with two repeating groups of sizes 2 and 3 and no other structure. -/
def exTwoGroups : Node :=
  .mk "r" [] "" [.mk "a" [] "1" [], .mk "a" [] "2" [],
    .mk "b" [] "x" [], .mk "b" [] "y" [], .mk "b" [] "z" []]

/-! ## Claim C1 -/

/-- C1, counterexample: on `<data><item id="1">A</item><item id="2">B</item></data>`
Policy B (`flatten_xml` with data node `"data"`) does NOT return a table
"item" with 2 rows carrying sequence numbers 1 and 2: the two `item`
children are processed as separate level-1 nodes and the dict assignment
`tables["item"] = collected_data` makes the second overwrite the first, so
the table has exactly one row and no `_sequence_num` column at all. -/
theorem C1_counterexample :
    (flatten_xml "data" "T" exScenario).length = 1 ∧
    ∀ tbl ∈ flatten_xml "data" "T" exScenario, tbl.1 = "item" ∧ tbl.2.length = 1 ∧
      ∀ row ∈ tbl.2, Ctx.find row "_sequence_num" = none := by
  decide

/-- C1, amended: Policy A returns exactly the two rows with columns
`data_item` and `data_item_id`; Policy B returns the table "item" with ONE
row — the flattening of the LAST `item` child (columns `item_id`, `item`,
plus the load timestamp) — and no sequence numbers. -/
theorem C1_amended :
    expand_node exScenario [] "" =
      [[("data_item_id", Val.str "1"), ("data_item", Val.str "A")],
       [("data_item_id", Val.str "2"), ("data_item", Val.str "B")]] ∧
    ∀ now : String, flatten_xml "data" now exScenario =
      [("item", [[("item_id", Val.str "2"), ("item", Val.str "B"),
        ("_load_timestamp", Val.str now)]])] := by
  exact ⟨by decide, fun now => rfl⟩

/-! ## Claim C3 -/

/-- C3, counterexample: with two level-1 children sharing the tag `p`, the
row produced from the first child (second conjunct shows it is produced) is
GONE from the final table set — `tables["p"]` was rewritten wholesale by the
second child, so a table does not "only ever grow". -/
theorem C3_counterexample :
    flatten_xml "data" "T" exSameTag =
      [("p", [[("p_u", Val.str "2"), ("_load_timestamp", Val.str "T")]])] ∧
    processChild "T" (Node.mk "p" [("u", "1")] "" []) =
      [[("p_u", Val.str "1"), ("_load_timestamp", Val.str "T")]] := by
  decide

theorem foldl_tablesStep (now : String) : ∀ (children : List Node)
    (acc : List (String × List Ctx)),
    (children.map Node.tag).Nodup →
    (∀ c ∈ children, ∀ p ∈ acc, p.1 ≠ c.tag) →
    children.foldl (tablesStep now) acc = acc ++ childTables now children := by
  intro children
  induction children with
  | nil => intro acc _ _; simp [childTables]
  | cons c rest ih =>
    intro acc hnd hdisj
    simp only [List.map_cons, List.nodup_cons] at hnd
    simp only [List.foldl_cons]
    by_cases hempty : (processChild now c).isEmpty
    · rw [show tablesStep now acc c = acc from by unfold tablesStep; rw [if_pos hempty]]
      rw [ih acc hnd.2 (fun c' hc' p hp => hdisj c' (List.mem_cons_of_mem _ hc') p hp)]
      have hskip : childTables now (c :: rest) = childTables now rest := by
        unfold childTables
        rw [List.filterMap_cons]
        simp [hempty]
      rw [hskip]
    · have hbool : (processChild now c).isEmpty = false := by
        cases hb : (processChild now c).isEmpty
        · rfl
        · exact absurd hb hempty
      have hstep : tablesStep now acc c = acc ++ [(c.tag, processChild now c)] := by
        unfold tablesStep tablesInsert
        rw [if_neg hempty, if_neg]
        intro hany
        obtain ⟨p, hp, hpt⟩ := List.any_eq_true.mp hany
        exact hdisj c (List.mem_cons_self _ _) p hp (by simpa using hpt)
      have hcons : childTables now (c :: rest) =
          (c.tag, processChild now c) :: childTables now rest := by
        unfold childTables
        rw [List.filterMap_cons]
        simp [hbool]
      rw [hstep, ih _ hnd.2 ?_, List.append_assoc, hcons]
      · rfl
      · intro c' hc' p hp
        rcases List.mem_append.1 hp with hp | hp
        · exact hdisj c' (List.mem_cons_of_mem _ hc') p hp
        · simp only [List.mem_singleton] at hp
          subst hp
          intro he
          refine hnd.1 ?_
          rw [show c.tag = c'.tag from he]
          exact List.mem_map_of_mem Node.tag hc' 

/-- C3, amended: a table entry is created when a level-1 tag first yields
rows; a LATER level-1 child with the same tag that yields rows REPLACES
that entry wholesale.  When the level-1 children
of the designated root have pairwise distinct tags, no overwriting can
occur: `flatten_xml` is exactly one `(tag, rows)` entry, in order, per
row-yielding child, so every table is created once and never rewritten. -/
theorem C3_amended (data_node now : String) (root de : Node)
    (hde : dataElem data_node root = some de)
    (hnd : (de.children.map Node.tag).Nodup) :
    flatten_xml data_node now root = childTables now de.children := by
  unfold flatten_xml
  rw [hde]
  exact foldl_tablesStep now de.children [] hnd (by simp)

/-- C3, witness: distinct level-1 tags give the append-only table list. -/
theorem C3_witness :
    flatten_xml "data" "T" exDistinctTags = childTables "T" exDistinctTags.children :=
  C3_amended "data" "T" exDistinctTags exDistinctTags rfl (by decide)

/-! ## Claim C5 -/

theorem expand_length_eq (e : Node) (ctx : Ctx) (path : String)
    (h : e.children.isEmpty = false) :
    (expand_node e ctx path).length =
      ((groupChildren e.children).map (fun g =>
        (g.2.map (fun n =>
          (expand_node n (baseOf e ctx path) (colPfx path e.tag)).length)).sum)).prod := by
  rw [expand_node_branch e ctx path h, List.length_map, length_listProduct]
  unfold groupsRows
  rw [List.map_map]
  congr 1
  apply List.map_congr_left
  intro g hg
  simp only [Function.comp, List.length_flatten, List.map_map]
  rfl

/-- C5: at every node with children, the Policy A row count is the product
over the node's tag groups of the summed row counts of the group's
children — `itertools.product` over per-group concatenated row lists. -/
theorem C5_row_count (e : Node) (ctx : Ctx) (path : String)
    (h : e.children.isEmpty = false) :
    (expand_node e ctx path).length =
      ((groupChildren e.children).map (fun g =>
        (g.2.map (fun n =>
          (expand_node n (baseOf e ctx path) (colPfx path e.tag)).length)).sum)).prod :=
  expand_length_eq e ctx path h

/-- C5, witness: the 2×3 scenario — two repeating groups of sizes 2 and 3,
each child a text leaf — yields 2·3 = 6 rows. -/
theorem C5_witness :
    exTwoGroups.children.isEmpty = false ∧
    (expand_node exTwoGroups [] "").length =
      ((groupChildren exTwoGroups.children).map (fun g =>
        (g.2.map (fun n =>
          (expand_node n (baseOf exTwoGroups [] "") (colPfx "" exTwoGroups.tag)).length)).sum)).prod ∧
    (expand_node exTwoGroups [] "").length = 6 :=
  ⟨by decide, C5_row_count exTwoGroups [] "" (by decide), by decide⟩

/-! ## Claim C4 -/

set_option maxRecDepth 4000 in
/-- C4: `_infer_snowflake_type` follows the strict cascade — empty →
`VARCHAR(500)`; else `int()`-parseable → `INTEGER`; else `float()`-parseable
→ `FLOAT`; else 8/10 characters with exactly two `-` or two `/` → `DATE`;
else `VARCHAR(min(max(len,100)*2, 16777216))` — with the five spec
examples. -/
theorem C4_type_inference :
    (∀ s : String, s ≠ "" → pyIntParseable (pyStrip s) = true →
      infer_snowflake_type s = "INTEGER") ∧
    (∀ s : String, s ≠ "" → pyIntParseable (pyStrip s) = false →
      pyFloatParseable (pyStrip s) = true → infer_snowflake_type s = "FLOAT") ∧
    (∀ s : String, s ≠ "" → pyIntParseable (pyStrip s) = false →
      pyFloatParseable (pyStrip s) = false → dateShape (pyStrip s) = true →
      infer_snowflake_type s = "DATE") ∧
    (∀ s : String, s ≠ "" → pyIntParseable (pyStrip s) = false →
      pyFloatParseable (pyStrip s) = false → dateShape (pyStrip s) = false →
      infer_snowflake_type s =
        "VARCHAR(" ++ toString (min (max (pyStrip s).length 100 * 2) 16777216) ++ ")") ∧
    infer_snowflake_type "" = "VARCHAR(500)" ∧
    infer_snowflake_type "42" = "INTEGER" ∧
    infer_snowflake_type "3.14" = "FLOAT" ∧
    infer_snowflake_type "2024-01-01" = "DATE" ∧
    infer_snowflake_type (String.mk (List.replicate 150 'x')) = "VARCHAR(300)" := by
  refine ⟨?_, ?_, ?_, ?_, by decide, by decide, by decide, by decide, by decide⟩
  · intro s hne hint
    simp [infer_snowflake_type, hne, hint]
  · intro s hne hint hfloat
    simp [infer_snowflake_type, hne, hint, hfloat]
  · intro s hne hint hfloat hdate
    simp [infer_snowflake_type, hne, hint, hfloat, hdate]
  · intro s hne hint hfloat hdate
    simp [infer_snowflake_type, hne, hint, hfloat, hdate]

/-- C4, witness. -/
theorem C4_witness : ("7" : String) ≠ "" ∧ infer_snowflake_type "7" = "INTEGER" :=
  ⟨by decide, C4_type_inference.1 "7" (by decide) (by decide)⟩

/-! ## Claim C6 -/

/-- Sibling groups with colliding column names:
`<a><b_c x="1"/><b><c x="2"/></b></a>` — the `b_c` group and the `b` group
both produce the column `a_b_c_x`. -/
def exCollide : Node :=
  .mk "a" [] "" [.mk "b_c" [("x", "1")] "" [], .mk "b" [] "" [.mk "c" [("x", "2")] "" []]]

/-- C6, counterexample: in the single output row of `exCollide` the value at
key `a_b_c_x` is `"2"`, although the sibling `b_c` group's own expansion
(second conjunct) wrote `"1"` to that same key.  The cartesian merge
`merged.update(row)` let a LATER sibling group at the same depth silently
replace the earlier sibling's value inside one output row — underscores in
tag/attribute names make two distinct sibling groups produce the same
fully-qualified column name. -/
theorem C6_counterexample :
    expand_node exCollide [] "" = [[("a_b_c_x", Val.str "2")]] ∧
    expand_node (Node.mk "b_c" [("x", "1")] "" []) [] "a" =
      [[("a_b_c_x", Val.str "1")]] := by
  decide

/-- C6, amended: in the cartesian merge of a node with children, each
output row merges one row per group into the base dict last-write-wins: the
row's value at every key is the value of the LAST combo row assigning it
(its final assignment), falling back to the node's base dict — so a key
written by one sibling group IS overwritten whenever a later sibling
group's selected row assigns the same key; no overwrite can happen only
when the groups' key sets are disjoint. -/
theorem C6_amended (e : Node) (ctx : Ctx) (path : String)
    (h : e.children.isEmpty = false) :
    ∀ row ∈ expand_node e ctx path, ∃ combo ∈ listProduct (groupsRows e ctx path),
      row = combo.foldl Ctx.update (baseOf e ctx path) ∧
      ∀ k, Ctx.find row k =
        match findLastContaining combo k with
        | some r => Ctx.lookupLast r k
        | none => Ctx.find (baseOf e ctx path) k := by
  intro row hrow
  rw [expand_node_branch e ctx path h] at hrow
  obtain ⟨combo, hc, rfl⟩ := List.mem_map.1 hrow
  exact ⟨combo, hc, rfl, fun k => mergeLookup combo _ k⟩

/-- C6, witness. -/
theorem C6_witness :
    exCollide.children.isEmpty = false ∧
    ∀ row ∈ expand_node exCollide [] "", ∃ combo ∈ listProduct (groupsRows exCollide [] ""),
      row = combo.foldl Ctx.update (baseOf exCollide [] "") ∧
      ∀ k, Ctx.find row k =
        match findLastContaining combo k with
        | some r => Ctx.lookupLast r k
        | none => Ctx.find (baseOf exCollide [] "") k :=
  ⟨by decide, C6_amended exCollide [] "" (by decide)⟩

/-! ## Claim C8 -/

theorem findDesc_none : ∀ (l : List Node) (t : String),
    containsTagList l t = false → findDesc t l = none := by
  have key : ∀ n (l : List Node), sizeOf l < n → ∀ t : String,
      containsTagList l t = false → findDesc t l = none := by
    intro n
    induction n with
    | zero => intro l h; omega
    | succ n ih =>
      intro l hsz t hct
      cases l with
      | nil => rfl
      | cons c rest =>
        simp only [containsTagList, Bool.or_eq_false_iff] at hct
        cases c with
        | mk tg a s cs =>
          simp only [containsTag, Bool.or_eq_false_iff] at hct
          have hszc : sizeOf cs < n := by
            simp only [List.cons.sizeOf_spec, Node.mk.sizeOf_spec] at hsz
            omega
          have hszr : sizeOf rest < n := by
            simp only [List.cons.sizeOf_spec, Node.mk.sizeOf_spec] at hsz
            omega
          show findStep t (Node.mk tg a s cs)
            (findDescIn t (Node.mk tg a s cs)) (findDesc t rest) = none
          unfold findStep
          rw [if_neg (by simpa [Node.tag] using hct.1.1)]
          show (findDesc t cs).orElse (fun _ => findDesc t rest) = none
          rw [ih cs hszc t hct.1.2, ih rest hszr t hct.2]
          rfl
  intro l t hct
  exact key (sizeOf l + 1) l (by omega) t hct

/-- C8: when the designated root tag occurs nowhere in the tree — neither
at the root nor among its descendants — `flatten_xml` returns the empty
table set.  (The embedding is total, matching the code's non-fatal
`logger.warning` path: no exception is involved.) -/
theorem C8_missing_root (data_node now : String) (root : Node)
    (h : containsTag root data_node = false) :
    flatten_xml data_node now root = [] := by
  cases root with
  | mk tg a s cs =>
    simp only [containsTag, Bool.or_eq_false_iff] at h
    unfold flatten_xml dataElem
    rw [if_neg (by simpa [Node.tag] using h.1)]
    show (match findDesc data_node cs with
      | none => []
      | some de => de.children.foldl (tablesStep now) []) = []
    rw [findDesc_none cs data_node h.2]

/-- C8, witness. -/
theorem C8_witness :
    containsTag (Node.mk "a" [] "" [Node.mk "b" [] "" []]) "data" = false ∧
    flatten_xml "data" "T" (Node.mk "a" [] "" [Node.mk "b" [] "" []]) = [] :=
  ⟨by decide, C8_missing_root "data" "T" _ (by decide)⟩

/-! ## Claim C10 -/

/-- `<r><b/><d>t</d><x>1</x><x>2</x></r>`: the bare child `<b/>` is the
first non-repetitive item; `d` and the repeating `x` group follow it. -/
def exSkipped : Node :=
  .mk "r" [] "" [.mk "b" [] "" [], .mk "d" [] "t" [], .mk "x" [] "1" [], .mk "x" [] "2" []]

/-- `exSkipped` without the bare child. -/
def exNoBare : Node :=
  .mk "r" [] "" [.mk "d" [] "t" [], .mk "x" [] "1" [], .mk "x" [] "2" []]

/-- C10: inline-flattening a bare non-repetitive child returns the empty
dict (not the `None` sentinel), which `if flattened:` treats identically to
`None`; the routine then recurses into that one child and returns at once,
so the node's remaining non-repetitive group (`d`, which carries text) and
its whole repeating group (`x`) are skipped and the path contributes no
rows — while the same tree without the bare child yields 2 rows. -/
theorem C10_empty_flatten_skip :
    flatten_element (Node.mk "b" [] "" []) "" = some [] ∧
    pyTruthy (some ([] : Ctx)) = pyTruthy none ∧
    (∀ (now : String) (pd : Ctx),
      extractRep now exSkipped pd = extractRep now (Node.mk "b" [] "" []) pd) ∧
    (∀ (now : String) (pd : Ctx), extractRep now exSkipped pd = []) ∧
    (extractRep "T" exNoBare []).length = 2 := by
  have hdivert : ∀ (now : String) (pd : Ctx),
      extractRep now exSkipped pd = extractRep now (Node.mk "b" [] "" []) pd := by
    intro now pd
    rw [← extractRep_fuel_spec 2 exSkipped (by decide) now pd,
      ← extractRep_fuel_spec 1 (Node.mk "b" [] "" []) (by decide) now pd]
    rfl
  have hbare : ∀ (now : String) (pd : Ctx),
      extractRep now (Node.mk "b" [] "" []) pd = [] := by
    intro now pd
    rw [extractRep.eq_def]
    simp [nonRepItems, groupChildren, firstSeenTags, splitFirstFalsy, repGroups, addOwnData,
      applyFlattens, pyStrip, Ctx.dictEq_refl, Node.children, Node.tag, Node.attrib, Node.text]
  refine ⟨rfl, rfl, hdivert, fun now pd => (hdivert now pd).trans (hbare now pd), ?_⟩
  rw [← extractRep_fuel_spec 2 exNoBare (by decide) "T" []]
  decide

/-! ## Claim C2 -/

theorem length_flatMap (l : List α) (f : α → List β) :
    (l.flatMap f).length = (l.map (fun a => (f a).length)).sum := by
  unfold List.flatMap
  rw [List.length_flatten, List.map_map]
  rfl

/-- C2, counterexample: on `<r><a>1</a><a>2</a><b>x</b><b>y</b><b>z</b></r>`
the extraction produces the `b` group's rows as INDEPENDENT top-level rows,
not through recursion into the `a` group: the loop
`for tag, children in repetitive.items():` iterates EVERY repeating group at
the same level.  The second conjunct exhibits a produced row that carries
`b` data but no `a` data at all, refuting "siblings of a second repeating
group are reached only via deeper recursion through the first". -/
theorem C2_counterexample :
    extractRep "T" exTwoGroups [] =
      [[("_sequence_num", Val.int 1), ("a", Val.str "1"), ("_load_timestamp", Val.str "T")],
       [("_sequence_num", Val.int 2), ("a", Val.str "2"), ("_load_timestamp", Val.str "T")],
       [("_sequence_num", Val.int 1), ("b", Val.str "x"), ("_load_timestamp", Val.str "T")],
       [("_sequence_num", Val.int 2), ("b", Val.str "y"), ("_load_timestamp", Val.str "T")],
       [("_sequence_num", Val.int 3), ("b", Val.str "z"), ("_load_timestamp", Val.str "T")]] ∧
    ∃ row ∈ extractRep "T" exTwoGroups [],
      Ctx.find row "a" = none ∧ Ctx.find row "b" ≠ none := by
  have h1 : extractRep "T" exTwoGroups [] =
      [[("_sequence_num", Val.int 1), ("a", Val.str "1"), ("_load_timestamp", Val.str "T")],
       [("_sequence_num", Val.int 2), ("a", Val.str "2"), ("_load_timestamp", Val.str "T")],
       [("_sequence_num", Val.int 1), ("b", Val.str "x"), ("_load_timestamp", Val.str "T")],
       [("_sequence_num", Val.int 2), ("b", Val.str "y"), ("_load_timestamp", Val.str "T")],
       [("_sequence_num", Val.int 3), ("b", Val.str "z"), ("_load_timestamp", Val.str "T")]] := by
    rw [← extractRep_fuel_spec 2 exTwoGroups (by decide) "T" []]
    decide
  refine ⟨h1, ?_⟩
  rw [h1]
  decide

/-- C2, amended: when a node's non-repetitive children all inline-flatten
truthily and repeating groups exist, EVERY repeating group is iterated
independently at that level, in first-seen order: for each group and each
of its children in document order, the accumulated dict is stamped with the
child's 1-based sequence number and extraction recurses into that child.
Rows of a later group are independent top-level branches that do not pass
through the first group; there is still no cross-multiplication — the total
row count is the SUM over groups of their children's row counts, not a
product. -/
theorem C2_amended (now : String) (e : Node) (parent : Ctx) (pre : List Node)
    (hs : splitFirstFalsy (nonRepItems e.children) = (pre, none))
    (hr : (repGroups e.children).isEmpty = false) :
    extractRep now e parent =
      (repGroups e.children).flatMap (fun g =>
        (enumL 0 g.2).flatMap (fun ic =>
          extractRep now ic.2
            (Ctx.insertKV (applyFlattens pre (addOwnData e parent)) "_sequence_num"
              (Val.int (ic.1 + 1))))) ∧
    (extractRep now e parent).length =
      ((repGroups e.children).map (fun g =>
        ((enumL 0 g.2).map (fun ic =>
          (extractRep now ic.2
            (Ctx.insertKV (applyFlattens pre (addOwnData e parent)) "_sequence_num"
              (Val.int (ic.1 + 1)))).length)).sum)).sum := by
  have h1 : extractRep now e parent =
      (repGroups e.children).flatMap (fun g =>
        (enumL 0 g.2).flatMap (fun ic =>
          extractRep now ic.2
            (Ctx.insertKV (applyFlattens pre (addOwnData e parent)) "_sequence_num"
              (Val.int (ic.1 + 1))))) := by
    rw [extractRep.eq_def]
    split
    next pre2 bad heq =>
      rw [hs] at heq
      exact absurd heq (by simp)
    next pre2 heq =>
      rw [hs] at heq
      simp only [Prod.mk.injEq] at heq
      obtain ⟨h1, -⟩ := heq
      subst h1
      rw [if_neg (by simp [hr])]
      trans ((repGroups e.children).flatMap fun g =>
        (enumL 0 g.2).attach.flatMap fun icp =>
          extractRep now icp.1.2
            (Ctx.insertKV (applyFlattens pre (addOwnData e parent)) "_sequence_num"
              (Val.int (icp.1.1 + 1))))
      · exact attach_flatMap (repGroups e.children) (fun g =>
          (enumL 0 g.2).attach.flatMap fun icp =>
            extractRep now icp.1.2
              (Ctx.insertKV (applyFlattens pre (addOwnData e parent)) "_sequence_num"
                (Val.int (icp.1.1 + 1))))
      · exact flatMap_congr (fun g _ => attach_flatMap (enumL 0 g.2) (fun ic =>
          extractRep now ic.2
            (Ctx.insertKV (applyFlattens pre (addOwnData e parent)) "_sequence_num"
              (Val.int (ic.1 + 1)))))
  refine ⟨h1, ?_⟩
  rw [h1, length_flatMap]
  congr 1
  apply List.map_congr_left
  intro g _
  rw [length_flatMap]

/-- C2, witness. -/
theorem C2_witness :
    extractRep "T" exTwoGroups [] =
      (repGroups exTwoGroups.children).flatMap (fun g =>
        (enumL 0 g.2).flatMap (fun ic =>
          extractRep "T" ic.2
            (Ctx.insertKV (applyFlattens [] (addOwnData exTwoGroups [])) "_sequence_num"
              (Val.int (ic.1 + 1))))) :=
  (C2_amended "T" exTwoGroups [] [] rfl (by decide)).1

/-! ## No-repetition trees: grouping facts -/

theorem mem_foldl_tags_mono : ∀ (l : List Node) (acc : List String) (t : String), t ∈ acc →
    t ∈ l.foldl (fun acc c => if acc.contains c.tag then acc else acc ++ [c.tag]) acc := by
  intro l
  induction l with
  | nil => intro acc t h; exact h
  | cons c rest ih =>
    intro acc t h
    simp only [List.foldl_cons]
    apply ih
    split
    · exact h
    · exact List.mem_append_left _ h

theorem mem_firstSeenTags_of_mem (l : List Node) (c : Node) (hc : c ∈ l) :
    c.tag ∈ firstSeenTags l := by
  have aux : ∀ (l : List Node) (acc : List String) (c : Node), c ∈ l →
      c.tag ∈ l.foldl (fun acc c => if acc.contains c.tag then acc else acc ++ [c.tag]) acc := by
    intro l
    induction l with
    | nil => intro acc c h; simp at h
    | cons c0 rest ih =>
      intro acc c h
      simp only [List.foldl_cons]
      rcases List.mem_cons.1 h with rfl | h2
      · apply mem_foldl_tags_mono
        split
        next hcont => exact List.elem_iff.1 hcont
        next => exact List.mem_append_right _ (List.mem_singleton_self _)
      · exact ih _ c h2
  exact aux l [] c hc

theorem exists_mem_of_mem_firstSeenTags (l : List Node) (t : String)
    (h : t ∈ firstSeenTags l) : ∃ c ∈ l, c.tag = t := by
  have aux : ∀ (l : List Node) (acc : List String) (t : String),
      t ∈ l.foldl (fun acc c => if acc.contains c.tag then acc else acc ++ [c.tag]) acc →
      t ∈ acc ∨ ∃ c ∈ l, c.tag = t := by
    intro l
    induction l with
    | nil => intro acc t h; exact Or.inl h
    | cons c0 rest ih =>
      intro acc t h
      simp only [List.foldl_cons] at h
      rcases ih _ t h with h2 | ⟨c, hc, rfl⟩
      · revert h2
        split
        · intro h2; exact Or.inl h2
        · intro h2
          rcases List.mem_append.1 h2 with h3 | h3
          · exact Or.inl h3
          · simp only [List.mem_singleton] at h3
            exact Or.inr ⟨c0, List.mem_cons_self _ _, h3.symm⟩
      · exact Or.inr ⟨c, List.mem_cons_of_mem _ hc, rfl⟩
  rcases aux l [] t h with h2 | h2
  · simp at h2
  · exact h2

theorem group_length_pos {l : List Node} {g : String × List Node}
    (hg : g ∈ groupChildren l) : 0 < g.2.length := by
  simp only [groupChildren, List.mem_map] at hg
  obtain ⟨t, ht, rfl⟩ := hg
  obtain ⟨c, hc, hct⟩ := exists_mem_of_mem_firstSeenTags l t ht
  exact List.length_pos_of_mem (List.mem_filter.2 ⟨hc, by simp [hct]⟩)

theorem hasRepList_false_mem : ∀ {l : List Node}, hasRepList l = false →
    ∀ {c : Node}, c ∈ l → has_repetitive_descendants c = false := by
  intro l
  induction l with
  | nil => intro _ c h; simp at h
  | cons c0 rest ih =>
    intro h c hc
    simp only [hasRepList, Bool.or_eq_false_iff] at h
    rcases List.mem_cons.1 hc with rfl | h2
    · exact h.1
    · exact ih h.2 h2

theorem hasRep_decomp {t : String} {a : List (String × String)} {s : String} {cs : List Node}
    (h : has_repetitive_descendants (Node.mk t a s cs) = false) :
    (groupChildren cs).any (fun g => decide (g.2.length > 1)) = false ∧
      hasRepList cs = false := by
  simpa only [has_repetitive_descendants, Bool.or_eq_false_iff] using h

theorem group_length_one {cs : List Node}
    (hany : (groupChildren cs).any (fun g => decide (g.2.length > 1)) = false)
    {g : String × List Node} (hg : g ∈ groupChildren cs) : g.2.length = 1 := by
  have h1 : ¬ (g.2.length > 1) := by
    intro hgt
    have habs : (groupChildren cs).any (fun g => decide (g.2.length > 1)) = true :=
      List.any_eq_true.2 ⟨g, hg, by simpa using hgt⟩
    rw [hany] at habs
    exact Bool.false_ne_true habs
  have h2 := group_length_pos hg
  omega

/-- Policy A on a tree without repeated sibling tags: exactly one row. -/
theorem expand_one_row : ∀ e : Node, has_repetitive_descendants e = false →
    ∀ (ctx : Ctx) (path : String), (expand_node e ctx path).length = 1 := by
  apply Node.inductionOn
  intro t a s cs ih hrep ctx path
  obtain ⟨hany, hlist⟩ := hasRep_decomp hrep
  by_cases hcs : (Node.mk t a s cs).children.isEmpty
  · by_cases ht : pyStrip (Node.mk t a s cs).text = ""
    · rw [expand_node_childless _ ctx path ht hcs]; rfl
    · rw [expand_node_text_leaf _ ctx path ht hcs]; rfl
  · have hcs' : (Node.mk t a s cs).children.isEmpty = false := by
      cases hb : (Node.mk t a s cs).children.isEmpty
      · rfl
      · exact absurd hb hcs
    rw [expand_length_eq _ ctx path hcs']
    apply List.prod_eq_one
    intro x hx
    simp only [List.mem_map] at hx
    obtain ⟨g, hg, rfl⟩ := hx
    have hg' : g ∈ groupChildren cs := by simpa [Node.children] using hg
    obtain ⟨c, hc⟩ := List.length_eq_one.1 (group_length_one hany hg')
    rw [hc]
    have hcmem : c ∈ cs :=
      groupChildren_sub hg' (by rw [hc]; exact List.mem_singleton_self c)
    simp [ih c hcmem (hasRepList_false_mem hlist hcmem)]

theorem nodup_tags_of_groups {l : List Node}
    (hany : (groupChildren l).any (fun g => decide (g.2.length > 1)) = false) :
    (l.map Node.tag).Nodup := by
  rw [List.nodup_iff_count_le_one]
  intro t
  by_cases hmem : t ∈ l.map Node.tag
  · obtain ⟨c, hc, rfl⟩ := List.mem_map.1 hmem
    have hg : (c.tag, l.filter (fun x => x.tag == c.tag)) ∈ groupChildren l := by
      simp only [groupChildren, List.mem_map]
      exact ⟨c.tag, mem_firstSeenTags_of_mem l c hc, rfl⟩
    have hlen := group_length_one hany hg
    rw [List.count_eq_countP, List.countP_map, List.countP_eq_length_filter]
    exact le_of_eq hlen
  · rw [List.count_eq_zero.2 hmem]
    omega

theorem findDesc_no_rep : ∀ (l : List Node), hasRepList l = false →
    ∀ (t : String) (de : Node), findDesc t l = some de →
    has_repetitive_descendants de = false := by
  have key : ∀ n (l : List Node), sizeOf l < n → hasRepList l = false →
      ∀ (t : String) (de : Node), findDesc t l = some de →
      has_repetitive_descendants de = false := by
    intro n
    induction n with
    | zero => intro l h; omega
    | succ n ih =>
      intro l hsz hrep t de hfind
      cases l with
      | nil => simp [findDesc] at hfind
      | cons c rest =>
        simp only [hasRepList, Bool.or_eq_false_iff] at hrep
        rw [show findDesc t (c :: rest) = findStep t c (findDescIn t c) (findDesc t rest)
          from rfl] at hfind
        unfold findStep at hfind
        split at hfind
        · simp only [Option.some.injEq] at hfind
          subst hfind
          exact hrep.1
        · cases c with
          | mk tg a s cs =>
            have hcsrep : hasRepList cs = false :=
              (by simpa only [has_repetitive_descendants, Bool.or_eq_false_iff]
                using hrep.1 : _ ∧ _).2
            have hszc : sizeOf cs < n := by
              simp only [List.cons.sizeOf_spec, Node.mk.sizeOf_spec] at hsz
              omega
            have hszr : sizeOf rest < n := by
              simp only [List.cons.sizeOf_spec, Node.mk.sizeOf_spec] at hsz
              omega
            rw [show findDescIn t (Node.mk tg a s cs) = findDesc t cs from rfl] at hfind
            cases hin : findDesc t cs with
            | some d2 =>
              rw [hin] at hfind
              simp only [Option.orElse] at hfind
              exact ih cs hszc hcsrep t de (hin.trans hfind)
            | none =>
              rw [hin] at hfind
              simp only [Option.orElse] at hfind
              exact ih rest hszr hrep.2 t de hfind
  intro l hrep t de hfind
  exact key (sizeOf l + 1) l (by omega) hrep t de hfind

/-! ## Flattening on no-repetition trees -/

theorem flattenChildren_eq_map (l : List Node) (p2 : String) :
    flattenChildren l p2 = l.map (fun c => flatten_element c p2) := by
  induction l with
  | nil => rfl
  | cons c rest ih => simp [flattenChildren, ih]

theorem isEmpty_insertKV (c : Ctx) (k : String) (v : Val) :
    (Ctx.insertKV c k v).isEmpty = false := by
  unfold Ctx.insertKV
  split
  next h =>
    cases c with
    | nil => simp at h
    | cons p rest => rfl
  next => cases c <;> rfl

theorem isEmpty_foldl_insert (attrs : List (String × String)) (c : Ctx)
    (f : String × String → String) (g : String × String → Val) :
    ((attrs.foldl (fun r kv => Ctx.insertKV r (f kv) (g kv)) c).isEmpty) =
      (c.isEmpty && attrs.isEmpty) := by
  induction attrs generalizing c with
  | nil => simp
  | cons a rest ih =>
    simp only [List.foldl_cons]
    rw [ih]
    simp [isEmpty_insertKV]

theorem isEmpty_update (a b : Ctx) : (Ctx.update a b).isEmpty = (a.isEmpty && b.isEmpty) := by
  induction b generalizing a with
  | nil => simp [Ctx.update]
  | cons p rest ih =>
    show (Ctx.update (Ctx.insertKV a p.1 p.2) rest).isEmpty = _
    rw [ih]
    simp [isEmpty_insertKV]

theorem isEmpty_foldl_update (base : Ctx) (rs : List (Option Ctx)) :
    ((rs.foldl (fun r cr => Ctx.update r (cr.getD [])) base).isEmpty) =
      (base.isEmpty && rs.all (fun cr => (cr.getD []).isEmpty)) := by
  induction rs generalizing base with
  | nil => simp
  | cons cr rest ih =>
    simp only [List.foldl_cons, List.all_cons]
    rw [ih, isEmpty_update, Bool.and_assoc]

theorem all_map_comp (l : List α) (f : α → β) (p : β → Bool) :
    (l.map f).all p = l.all (p ∘ f) := by
  induction l with
  | nil => rfl
  | cons x rest ih => simp [ih]

theorem all_congr {l : List α} {p q : α → Bool} (h : ∀ x ∈ l, p x = q x) :
    l.all p = l.all q := by
  induction l with
  | nil => rfl
  | cons x rest ih =>
    simp only [List.all_cons]
    rw [h x (List.mem_cons_self _ _), ih (fun y hy => h y (List.mem_cons_of_mem _ hy))]

theorem hasDataList_eq_any (l : List Node) : hasDataList l = l.any hasData := by
  induction l with
  | nil => rfl
  | cons c rest ih => simp [hasDataList, ih]

theorem all_not_eq_not_any {l : List α} (p : α → Bool) :
    l.all (fun x => !p x) = !(l.any p) := by
  induction l with
  | nil => rfl
  | cons x rest ih => simp [ih]

theorem isEmpty_flattenBase (t : String) (a : List (String × String)) (s pfx : String) :
    (flattenBase t a s pfx).isEmpty = (a.isEmpty && !(pyStrip s != "")) := by
  unfold flattenBase
  split
  next h =>
    rw [isEmpty_insertKV]
    have hb : (pyStrip s != "") = true := by simpa using h
    simp [hb]
  next h =>
    rw [isEmpty_foldl_insert a [] (fun kv => pfx ++ t ++ "_" ++ kv.1) (fun kv => Val.str kv.2)]
    have hb : (pyStrip s != "") = false := by simpa using h
    simp [hb]

/-- On a subtree without repeated sibling tags, `_flatten_element` always
returns a dict (never the `None` sentinel), and that dict is empty exactly
when the subtree carries no attribute and no nonempty text. -/
theorem flatten_no_rep : ∀ e : Node, has_repetitive_descendants e = false →
    ∀ pfx : String, ∃ r : Ctx, flatten_element e pfx = some r ∧
      r.isEmpty = !hasData e := by
  apply Node.inductionOn
  intro t a s cs ih hrep pfx
  obtain ⟨hany, hlist⟩ := hasRep_decomp hrep
  have hkids : ∀ c ∈ cs, ∃ rc : Ctx, flatten_element c (pfx ++ t ++ "_") = some rc ∧
      rc.isEmpty = !hasData c := fun c hc => ih c hc (hasRepList_false_mem hlist hc) _
  have hnone : (flattenChildren cs (pfx ++ t ++ "_")).any (fun r => r.isNone) = false := by
    cases hb : (flattenChildren cs (pfx ++ t ++ "_")).any (fun r => r.isNone)
    · rfl
    · exfalso
      obtain ⟨x, hx, hpx⟩ := List.any_eq_true.1 hb
      rw [flattenChildren_eq_map] at hx
      obtain ⟨c, hc, rfl⟩ := List.mem_map.1 hx
      obtain ⟨rc, hrc, -⟩ := hkids c hc
      rw [hrc] at hpx
      simp at hpx
  show ∃ r, flattenAssemble t a s cs pfx (flattenChildren cs (pfx ++ t ++ "_")) = some r ∧ _
  unfold flattenAssemble
  rw [if_neg (by simp [hany]), if_neg (by simp [hnone])]
  refine ⟨_, rfl, ?_⟩
  rw [isEmpty_foldl_update, isEmpty_flattenBase, flattenChildren_eq_map,
    all_map_comp cs (fun c => flatten_element c (pfx ++ t ++ "_"))
      (fun cr => (cr.getD []).isEmpty)]
  have hall : cs.all ((fun cr => (cr.getD ([] : Ctx)).isEmpty) ∘
      (fun c => flatten_element c (pfx ++ t ++ "_"))) = cs.all (fun c => !hasData c) := by
    apply all_congr
    intro c hc
    obtain ⟨rc, hrc, hrce⟩ := hkids c hc
    simp [Function.comp, hrc, hrce]
  rw [hall, all_not_eq_not_any]
  show _ = !hasData (Node.mk t a s cs)
  simp [hasData, hasDataList_eq_any, Bool.not_or, Bool.and_assoc]

theorem processChild_no_rep {c : Node} (h : has_repetitive_descendants c = false)
    (now : String) :
    processChild now c = if hasData c then
      [Ctx.insertKV ((flatten_element c "").getD []) "_load_timestamp" (Val.str now)]
    else [] := by
  obtain ⟨r, hr, hre⟩ := flatten_no_rep c h ""
  unfold processChild
  rw [if_neg (by simp [h]), hr]
  cases hb : hasData c
  · have hre' : r.isEmpty = true := by rw [hre, hb]; rfl
    simp [hre', hb]
  · have hre' : r.isEmpty = false := by rw [hre, hb]; rfl
    simp [hre', hb, hr]

theorem childTables_no_rep {children : List Node} (h : hasRepList children = false)
    (now : String) :
    childTables now children = (children.filter hasData).map (fun c =>
      (c.tag, [Ctx.insertKV ((flatten_element c "").getD []) "_load_timestamp"
        (Val.str now)])) := by
  induction children with
  | nil => rfl
  | cons c rest ih =>
    simp only [hasRepList, Bool.or_eq_false_iff] at h
    have hpc := processChild_no_rep h.1 now
    cases hb : hasData c
    · have hproc : processChild now c = [] := by rw [hpc, hb]; rfl
      unfold childTables
      rw [List.filterMap_cons]
      simp only [hproc, List.isEmpty_nil, if_true, List.filter_cons, hb]
      exact ih h.2
    · have hproc : processChild now c =
          [Ctx.insertKV ((flatten_element c "").getD []) "_load_timestamp" (Val.str now)] := by
        rw [hpc, hb]
        rfl
      unfold childTables
      rw [List.filterMap_cons]
      simp only [hproc, List.isEmpty_cons, if_false, List.filter_cons, hb, if_true,
        List.map_cons]
      exact congrArg _ (ih h.2)

theorem hasRep_decomp' (e : Node) (h : has_repetitive_descendants e = false) :
    (groupChildren e.children).any (fun g => decide (g.2.length > 1)) = false ∧
      hasRepList e.children = false := by
  cases e with
  | mk t a s cs => simpa [Node.children] using hasRep_decomp h

/-! ## Claim C7 -/

/-- C7: on a tree where no tag repeats among any node's children, Policy A
produces exactly one row, and Policy B produces, per level-1 child of the
designated root, exactly one table row — present exactly when the child's
subtree contributed some attribute or nonempty text (`hasData`). -/
theorem C7_one_row_no_repeats :
    (∀ e : Node, has_repetitive_descendants e = false →
      ∀ (ctx : Ctx) (path : String), (expand_node e ctx path).length = 1) ∧
    (∀ (data_node now : String) (root de : Node),
      has_repetitive_descendants root = false →
      dataElem data_node root = some de →
      flatten_xml data_node now root =
        (de.children.filter hasData).map (fun c =>
          (c.tag, [Ctx.insertKV ((flatten_element c "").getD []) "_load_timestamp"
            (Val.str now)]))) := by
  constructor
  · exact expand_one_row
  · intro data_node now root de hrep hde
    have hderep : has_repetitive_descendants de = false := by
      unfold dataElem at hde
      split at hde
      · simp only [Option.some.injEq] at hde
        subst hde
        exact hrep
      · cases root with
        | mk tg a s cs =>
          exact findDesc_no_rep cs (hasRep_decomp hrep).2 data_node de
            (by simpa [Node.children] using hde)
    obtain ⟨hany, hlist⟩ := hasRep_decomp' de hderep
    unfold flatten_xml
    rw [hde]
    show List.foldl (tablesStep now) [] de.children = _
    rw [foldl_tablesStep now de.children [] (nodup_tags_of_groups hany) (by simp),
      childTables_no_rep hlist now]
    rfl

/-- A no-repeat tree: three level-1 children, of which `q` (attribute) and
`v` (text) contribute data and the bare `w` does not. -/
def exNoRepeat : Node :=
  .mk "data" [] "" [.mk "q" [("u", "1")] "" [], .mk "w" [] "" [], .mk "v" [] "t" []]

/-- C7, witness. -/
theorem C7_witness :
    has_repetitive_descendants exNoRepeat = false ∧
    (expand_node exNoRepeat [] "").length = 1 ∧
    flatten_xml "data" "T" exNoRepeat =
      (exNoRepeat.children.filter hasData).map (fun c =>
        (c.tag, [Ctx.insertKV ((flatten_element c "").getD []) "_load_timestamp"
          (Val.str "T")])) :=
  ⟨by decide, C7_one_row_no_repeats.1 exNoRepeat (by decide) [] "",
    C7_one_row_no_repeats.2 "data" "T" exNoRepeat exNoRepeat (by decide) rfl⟩

/-! ## Column-name shape lemmas (Claim C9) -/

theorem strExt_append (p t : String) : strExt p (p ++ "_" ++ t) := by
  show p.data ++ ['_'] <+: (p ++ "_" ++ t).data
  rw [String.data_append, String.data_append,
    show ("_" : String).data = ['_'] from rfl]
  exact List.prefix_append _ _

theorem not_strExt_self (p : String) : ¬ strExt p p := by
  intro h
  have := h.length_le
  simp at this

theorem strExt_trans_seg {p t k : String} (h : strExt (p ++ "_" ++ t) k) : strExt p k := by
  refine List.IsPrefix.trans ?_ h
  rw [String.data_append, String.data_append,
    show ("_" : String).data = ['_'] from rfl]
  exact ⟨t.data ++ ['_'], by simp⟩

theorem strExt_colPfx {p : String} (hp : p ≠ "") (t : String) : strExt p (colPfx p t) := by
  unfold colPfx
  rw [if_pos hp]
  exact strExt_append p t

theorem strExt_of_colPfx_ext {p t k : String} (hp : p ≠ "") (h : strExt (colPfx p t) k) :
    strExt p k := by
  unfold colPfx at h
  rw [if_pos hp] at h
  exact strExt_trans_seg h

theorem colPfx_ne_empty {p : String} (hp : p ≠ "") (t : String) : colPfx p t ≠ "" := by
  unfold colPfx
  rw [if_pos hp]
  intro h
  have hdata : (p ++ "_" ++ t).data = ("" : String).data := by rw [h]
  rw [String.data_append, String.data_append,
    show ("_" : String).data = ['_'] from rfl] at hdata
  simp at hdata

/-- A deviation introduced by the attribute-merging step can only sit at a
column of the form `pfx ++ "_" ++ attrName`. -/
theorem find_addAttrs_dev : ∀ (attrs : List (String × String)) (c : Ctx) (pfx k : String),
    Ctx.find (addAttrs c pfx attrs) k ≠ Ctx.find c k → strExt pfx k := by
  intro attrs
  induction attrs with
  | nil => intro c pfx k h; exact absurd rfl h
  | cons a rest ih =>
    intro c pfx k h
    by_cases h2 : Ctx.find (addAttrs (Ctx.insertKV c (pfx ++ "_" ++ a.1) (Val.str a.2)) pfx rest) k
        = Ctx.find (Ctx.insertKV c (pfx ++ "_" ++ a.1) (Val.str a.2)) k
    · have h3 : Ctx.find (Ctx.insertKV c (pfx ++ "_" ++ a.1) (Val.str a.2)) k ≠ Ctx.find c k := by
        intro he
        exact h (by
          rw [show addAttrs c pfx (a :: rest) =
            addAttrs (Ctx.insertKV c (pfx ++ "_" ++ a.1) (Val.str a.2)) pfx rest from rfl,
            h2, he])
      rw [Ctx.find_insertKV] at h3
      by_cases hk : pfx ++ "_" ++ a.1 = k
      · rw [← hk]
        exact strExt_append pfx a.1
      · rw [if_neg hk] at h3
        exact absurd rfl h3
    · exact ih _ pfx k h2

theorem mem_groupsRows {e : Node} {ctx : Ctx} {path : String} {gRows : List Ctx}
    (h : gRows ∈ groupsRows e ctx path) {r : Ctx} (hr : r ∈ gRows) :
    ∃ c ∈ e.children, r ∈ expand_node c (baseOf e ctx path) (colPfx path e.tag) := by
  unfold groupsRows at h
  obtain ⟨g, hg, rfl⟩ := List.mem_map.1 h
  rw [List.mem_flatten] at hr
  obtain ⟨l2, hl2, hrl2⟩ := hr
  obtain ⟨c, hc, rfl⟩ := List.mem_map.1 hl2
  exact ⟨c, groupChildren_sub hg hc, hrl2⟩

theorem mem_of_findLastContaining {rs : List Ctx} {k : String} {r : Ctx}
    (h : findLastContaining rs k = some r) : r ∈ rs := by
  unfold findLastContaining at h
  exact List.mem_reverse.1 (List.mem_of_find?_eq_some h)

/-- Key-shape invariant of Policy A: within one expansion, any key at which
an output row deviates from the incoming context either extends the node's
column prefix by an underscore-separated segment (an attribute column or a
descendant's column) or is the prefix itself — and the latter happens only
at a text leaf (text with no children). -/
theorem expand_deviation : ∀ e : Node, ∀ (ctx : Ctx) (path k : String),
    (Ctx.keys ctx).Nodup → colPfx path e.tag ≠ "" →
    ∀ row ∈ expand_node e ctx path, Ctx.find row k ≠ Ctx.find ctx k →
    strExt (colPfx path e.tag) k ∨
      (k = colPfx path e.tag ∧ pyStrip e.text ≠ "" ∧ e.children.isEmpty = true) := by
  apply Node.inductionOn
  intro t a s cs ih ctx path k hnodup hpfx row hrow hdev
  by_cases hcs : (Node.mk t a s cs).children.isEmpty
  · by_cases ht : pyStrip (Node.mk t a s cs).text = ""
    · rw [expand_node_childless _ ctx path ht hcs] at hrow
      simp only [List.mem_singleton] at hrow
      subst hrow
      exact Or.inl (find_addAttrs_dev _ _ _ _ hdev)
    · rw [expand_node_text_leaf _ ctx path ht hcs] at hrow
      simp only [List.mem_singleton] at hrow
      subst hrow
      rw [Ctx.find_insertKV] at hdev
      by_cases hk : colPfx path (Node.mk t a s cs).tag = k
      · exact Or.inr ⟨hk.symm, ht, hcs⟩
      · rw [if_neg hk] at hdev
        exact Or.inl (find_addAttrs_dev _ _ _ _ hdev)
  · have hcs' : (Node.mk t a s cs).children.isEmpty = false := by
      cases hb : (Node.mk t a s cs).children.isEmpty
      · rfl
      · exact absurd hb hcs
    rw [expand_node_branch _ ctx path hcs'] at hrow
    obtain ⟨combo, hcombo, rfl⟩ := List.mem_map.1 hrow
    have hbase_nodup : (Ctx.keys (baseOf (Node.mk t a s cs) ctx path)).Nodup :=
      Ctx.nodupKeys_addAttrs hnodup _ _
    rw [mergeLookup] at hdev
    cases hflc : findLastContaining combo k with
    | none =>
      rw [hflc] at hdev
      exact Or.inl (find_addAttrs_dev _ _ _ _ hdev)
    | some rstar =>
      rw [hflc] at hdev
      dsimp only [] at hdev
      have hrmem : rstar ∈ combo := mem_of_findLastContaining hflc
      obtain ⟨gRows, hgr, hrg⟩ := exists_group_of_mem_listProduct hcombo hrmem
      obtain ⟨c, hc, hrec⟩ := mem_groupsRows hgr hrg
      have hrnodup := expand_nodupKeys hbase_nodup rstar hrec
      rw [Ctx.lookupLast_eq_find hrnodup] at hdev
      by_cases hrb : Ctx.find rstar k = Ctx.find (baseOf (Node.mk t a s cs) ctx path) k
      · rw [hrb] at hdev
        exact Or.inl (find_addAttrs_dev _ _ _ _ hdev)
      · have hcmem : c ∈ cs := by simpa [Node.children] using hc
        have hchild := ih c hcmem (baseOf (Node.mk t a s cs) ctx path)
          (colPfx path (Node.mk t a s cs).tag) k hbase_nodup
          (colPfx_ne_empty hpfx c.tag) rstar hrec hrb
        rcases hchild with h1 | ⟨h1, -⟩
        · exact Or.inl (strExt_of_colPfx_ext hpfx h1)
        · refine Or.inl ?_
          rw [h1]
          exact strExt_colPfx hpfx c.tag

/-! ## Claim C9 -/

/-- C9: at a mixed-content node (nonempty trimmed text AND children),
Policy A writes NO column for the node's text: in every output row the
node's own text column (its column prefix) holds exactly whatever the
incoming context already held there — with an empty context, nothing.  The
text branch fires only for text with zero children, so mixed-content text
is silently dropped from every output row. -/
theorem C9_mixed_text_dropped (e : Node) (ctx : Ctx) (path : String)
    (hnodup : (Ctx.keys ctx).Nodup) (hpfx : colPfx path e.tag ≠ "")
    (htext : pyStrip e.text ≠ "") (hchildren : e.children.isEmpty = false) :
    ∀ row ∈ expand_node e ctx path,
      Ctx.find row (colPfx path e.tag) = Ctx.find ctx (colPfx path e.tag) := by
  intro row hrow
  by_contra hdev
  rcases expand_deviation e ctx path (colPfx path e.tag) hnodup hpfx row hrow hdev
    with h1 | ⟨-, -, h3⟩
  · exact not_strExt_self _ h1
  · rw [hchildren] at h3
    exact Bool.false_ne_true h3

/-- A mixed-content element: text `"TXT"` and one child. -/
def exMixed : Node := .mk "m" [] "TXT" [.mk "c" [] "1" []]

/-- C9, witness: the mixed node's text column `m` is absent from its rows. -/
theorem C9_witness :
    pyStrip exMixed.text ≠ "" ∧ exMixed.children.isEmpty = false ∧
    ∀ row ∈ expand_node exMixed [] "",
      Ctx.find row (colPfx "" exMixed.tag) = Ctx.find [] (colPfx "" exMixed.tag) :=
  ⟨by decide, by decide,
    C9_mixed_text_dropped exMixed [] "" (by decide) (by decide) (by decide) (by decide)⟩
